import Mathlib

/-!
Verification of the rusty HTML/CSS core (dom.rs, html.rs, css.rs, style.rs).

Shallow embedding conventions:
* Strings are lists of Unicode scalar values (`Str := List Char`); the Rust
  parsers advance one scalar value at a time (`char_range_at`), so a parser
  cursor `Parser { pos, input }` is embedded as the unconsumed suffix of the
  input.  No claim inspects the numeric position, and the suffix view makes
  every cursor step structural.
* `HashMap` (attribute maps, property maps) is embedded as a lookup function
  `key → Option value`; `insert` overwrites, keys are unique by construction,
  iteration order is never observed by the code under verification.
* Rust panics (`assert!`, `panic!`, out-of-bounds `char_at`) abort the whole
  parse; they are embedded as an `Except` error carrying exactly the data the
  panic carries: nothing for `assert!`/out-of-bounds, the offending character
  for the `panic!` in `parse_selectors`.  `fuelOut` is an artefact of the
  fuel-based embedding of loops and recursion and is unreachable for the fuel
  budgets used (every loop iteration consumes input).
* `slice::sort_by` is a stable sort; any stable sort computes the same list,
  so it is embedded as a stable insertion sort.
-/

/-- Strings as lists of Unicode scalar values. -/
abbrev Str := List Char

/-- Outcome of a Rust panic (or fuel exhaustion, an embedding artefact).
`panicked` models `assert!` failures and out-of-bounds cursor reads, which
carry no position and no expected-vs-found data; `unexpectedChar c` models
the `panic!("Unexpected character {} in selector list", c)` in css.rs, which
carries the character but no position. -/
inductive ParseError where
  | panicked
  | unexpectedChar (c : Char)
  | fuelOut
deriving DecidableEq, Repr

namespace dom

/-- dom.rs: `type AttrMap = HashMap<String, String>`, embedded as a lookup
function (unique keys, insert overwrites). -/
abbrev AttrMap := Str → Option Str

/-- dom.rs: `struct ElementData { tag_name, attributes }`. -/
structure ElementData where
  tag_name : Str
  attributes : AttrMap

/-- dom.rs: `enum NodeType { Element(ElementData), Text(String) }`. -/
inductive NodeType where
  | Element (data : ElementData)
  | Text (data : Str)

/-- dom.rs: `struct Node { children: Vec<Node>, node_type: NodeType }`. -/
inductive Node where
  | mk (children : List Node) (node_type : NodeType)

/-- Field accessor for `Node.children`. -/
def Node.children : Node → List Node
  | .mk cs _ => cs

/-- Field accessor for `Node.node_type`. -/
def Node.node_type : Node → NodeType
  | .mk _ nt => nt

/-- dom.rs: `fn text(data: String) -> Node`. -/
def text (data : Str) : Node := .mk [] (.Text data)

/-- dom.rs: `fn elem(name, attrs, children) -> Node`. -/
def elem (name : Str) (attrs : AttrMap) (children : List Node) : Node :=
  .mk children (.Element ⟨name, attrs⟩)

/-- The empty attribute map (`HashMap::new()`). -/
def emptyAttrMap : AttrMap := fun _ => none

/-- `HashMap::insert` on an attribute map: overwrite the key's entry. -/
def attrInsert (k v : Str) (m : AttrMap) : AttrMap :=
  fun k' => if k' = k then some v else m k'

/-- Whether a node is an Element node. -/
def isElement : Node → Bool
  | .mk _ (.Element _) => true
  | .mk _ (.Text _) => false

end dom

namespace html

/-- html.rs `Parser::next_char`: `char_at(pos)`, a panic past the end. -/
def next_char : Str → Except ParseError Char
  | [] => .error .panicked
  | c :: _ => .ok c

/-- html.rs `Parser::starts_with`. -/
def starts_with (s : Str) (input : Str) : Bool := s.isPrefixOf input

/-- html.rs `Parser::eof`. -/
def eof (input : Str) : Bool := input.isEmpty

/-- html.rs `consume_char`: return the current character, advance the cursor. -/
def consume_char : Str → Except ParseError (Char × Str)
  | [] => .error .panicked
  | c :: rest => .ok (c, rest)

/-- html.rs `consume_while`: consume characters while `test` holds, returning
them together with the rest of the input. -/
def consume_while (test : Char → Bool) : Str → Str × Str
  | [] => ([], [])
  | c :: rest =>
    if test c then
      let (s, rest') := consume_while test rest
      (c :: s, rest')
    else ([], c :: rest)

/-- html.rs `consume_whitespace`: consume and discard whitespace. -/
def consume_whitespace (input : Str) : Str :=
  (consume_while Char.isWhitespace input).2

/-- The character class of html.rs `parse_tag_name`:
`'a'...'z' | 'A'...'Z' | '0'...'9'`. -/
def is_tag_char (c : Char) : Bool :=
  (decide ('a' ≤ c) && decide (c ≤ 'z')) ||
  (decide ('A' ≤ c) && decide (c ≤ 'Z')) ||
  (decide ('0' ≤ c) && decide (c ≤ '9'))

/-- html.rs `parse_tag_name`. -/
def parse_tag_name (input : Str) : Str × Str :=
  consume_while is_tag_char input

/-- html.rs `parse_text`: consume characters up to the next `<`. -/
def parse_text (input : Str) : dom.Node × Str :=
  let (t, rest) := consume_while (fun c => c != '<') input
  (dom.text t, rest)

/-- html.rs `parse_attr_value`: consume the opening quote (`assert!` it is
`"` or `'`), then the value up to the closing quote.  Note: as written in
src, the closing quote is NOT consumed (the source lacks the final
`assert!(self.consume_char() == open_quote)`). -/
def parse_attr_value (input : Str) : Except ParseError (Str × Str) :=
  match consume_char input with
  | .error e => .error e
  | .ok (open_quote, st) =>
    if open_quote = '"' ∨ open_quote = '\'' then
      let (value, st') := consume_while (fun c => c != open_quote) st
      .ok (value, st')
    else .error .panicked

/-- html.rs `parse_attr`: `name`, `assert!` on `=`, then a quoted value. -/
def parse_attr (input : Str) : Except ParseError ((Str × Str) × Str) :=
  let (name, st) := parse_tag_name input
  match consume_char st with
  | .error e => .error e
  | .ok (c, st') =>
    if c = '=' then
      match parse_attr_value st' with
      | .error e => .error e
      | .ok (value, st'') => .ok ((name, value), st'')
    else .error .panicked

/-- The loop of html.rs `parse_attributes`, with the mutable map threaded as
an accumulator: skip whitespace, stop before `>`, otherwise parse one pair
and insert it. -/
def parse_attributes_loop : Nat → Str → dom.AttrMap → Except ParseError (dom.AttrMap × Str)
  | 0, _, _ => .error .fuelOut
  | fuel + 1, input, attributes =>
    let st := consume_whitespace input
    match next_char st with
    | .error e => .error e
    | .ok c =>
      if c = '>' then .ok (attributes, st)
      else
        match parse_attr st with
        | .error e => .error e
        | .ok ((name, value), st') =>
          parse_attributes_loop fuel st' (dom.attrInsert name value attributes)

/-- html.rs `parse_attributes`: run the loop from an empty map. -/
def parse_attributes (fuel : Nat) (input : Str) : Except ParseError (dom.AttrMap × Str) :=
  parse_attributes_loop fuel input dom.emptyAttrMap

/-- The closing-tag lookahead `"</"`. -/
def ltSlash : Str := ['<', '/']

mutual

/-- html.rs `parse_node`: an element if the next character is `<`, a text
node otherwise. -/
def parse_node : Nat → Str → Except ParseError (dom.Node × Str)
  | 0, _ => .error .fuelOut
  | fuel + 1, input =>
    match next_char input with
    | .error e => .error e
    | .ok c =>
      if c = '<' then parse_element fuel input
      else .ok (parse_text input)

/-- html.rs `parse_element`: opening tag (with `assert!`s on `<`, `>`),
children, and the closing tag whose name must match. -/
def parse_element : Nat → Str → Except ParseError (dom.Node × Str)
  | 0, _ => .error .fuelOut
  | fuel + 1, input =>
    match consume_char input with
    | .error e => .error e
    | .ok (c1, st) =>
      if c1 = '<' then
        let (tag_name, st1) := parse_tag_name st
        match parse_attributes (fuel + 1) st1 with
        | .error e => .error e
        | .ok (attrs, st2) =>
          match consume_char st2 with
          | .error e => .error e
          | .ok (c2, st3) =>
            if c2 = '>' then
              match parse_nodes fuel st3 with
              | .error e => .error e
              | .ok (children, st4) =>
                match consume_char st4 with
                | .error e => .error e
                | .ok (c3, st5) =>
                  if c3 = '<' then
                    match consume_char st5 with
                    | .error e => .error e
                    | .ok (c4, st6) =>
                      if c4 = '/' then
                        let (tag2, st7) := parse_tag_name st6
                        if tag2 = tag_name then
                          match consume_char st7 with
                          | .error e => .error e
                          | .ok (c5, st8) =>
                            if c5 = '>' then
                              .ok (dom.elem tag_name attrs children, st8)
                            else .error .panicked
                        else .error .panicked
                      else .error .panicked
                  else .error .panicked
            else .error .panicked
      else .error .panicked

/-- html.rs `parse_nodes`: skip whitespace, stop at end-of-input or a `</`
lookahead, otherwise parse one node and continue. -/
def parse_nodes : Nat → Str → Except ParseError (List dom.Node × Str)
  | 0, _ => .error .fuelOut
  | fuel + 1, input =>
    let st := consume_whitespace input
    if eof st || starts_with ltSlash st then .ok ([], st)
    else
      match parse_node fuel st with
      | .error e => .error e
      | .ok (node, st') =>
        match parse_nodes fuel st' with
        | .error e => .error e
        | .ok (nodes, st'') => .ok (node :: nodes, st'')

end

/-- The fuel budget used by `parse`: every iteration of every loop consumes
at least one character, so this bound is never reached. -/
def parseFuel (source : Str) : Nat := source.length + 2

/-- html.rs `parse`: parse top-level nodes; a single node is the document,
otherwise the nodes are wrapped in an implicit `html` element with an empty
attribute map. -/
def parse (source : Str) : Except ParseError dom.Node :=
  match parse_nodes (parseFuel source) source with
  | .error e => .error e
  | .ok (nodes, _) =>
    match nodes with
    | [node] => .ok node
    | _ => .ok (dom.elem ("html".toList) dom.emptyAttrMap nodes)

end html

namespace css

/-- css.rs: f32 values in `Value::Length` are stored by the verified
components and never computed on; the payload is modelled abstractly. -/
abbrev F32 := Int

/-- css.rs: `enum Unit { Px }`. -/
inductive Unit where
  | Px
deriving DecidableEq

/-- css.rs: `struct Color { r, g, b, a: u8 }`; the components are stored,
never computed on, so `u8` is modelled as `Nat`. -/
structure Color where
  r : Nat
  g : Nat
  b : Nat
  a : Nat
deriving DecidableEq

/-- css.rs: `enum Value { Keyword(String), Length(f32, Unit), ColorValue(Color) }`. -/
inductive Value where
  | Keyword (s : Str)
  | Length (v : F32) (u : Unit)
  | ColorValue (c : Color)
deriving DecidableEq

/-- css.rs: `struct SimpleSelector { tag_name, id, class }` (`class` is a
`Vec<String>`, so repeated class fragments are kept, not collapsed). -/
structure SimpleSelector where
  tag_name : Option Str
  id : Option Str
  «class» : List Str

/-- css.rs: `enum Selector { Simple(SimpleSelector) }`. -/
inductive Selector where
  | Simple (s : SimpleSelector)

/-- css.rs: `struct Declaration { name, value }`. -/
structure Declaration where
  name : Str
  value : Value

/-- css.rs: `struct Rule { selectors, declarations }`. -/
structure Rule where
  selectors : List Selector
  declarations : List Declaration

/-- css.rs: `struct Stylesheet { rules }`. -/
structure Stylesheet where
  rules : List Rule

/-- css.rs: `pub type Specificity = (uint, uint, uint)`.  The counts are
bounded by the input length, so `uint` overflow cannot occur and `Nat` is
faithful. -/
abbrev Specificity := Nat × Nat × Nat

/-- css.rs `Selector::specificity`: `(id.iter().len(), class.len(),
tag_name.iter().len())`. -/
def Selector.specificity : Selector → Specificity
  | .Simple simple =>
    (simple.id.toList.length, simple.«class».length, simple.tag_name.toList.length)

/-- Rust `Ord::cmp` on `uint`. -/
def natCmp (m n : Nat) : Ordering :=
  if m < n then .lt else if n < m then .gt else .eq

/-- Rust's derived `Ord` on the tuple `(uint, uint, uint)`: compare the
first components, then the second, then the third. -/
def specCmp (a b : Specificity) : Ordering :=
  (natCmp a.1 b.1).then ((natCmp a.2.1 b.2.1).then (natCmp a.2.2 b.2.2))

/-- `a < b` in the derived tuple order (`cmp` yields `Less`). -/
def specLt (a b : Specificity) : Bool := decide (specCmp a b = .lt)

/-- `a ≤ b` in the derived tuple order (`cmp` does not yield `Greater`). -/
def specLe (a b : Specificity) : Bool := decide (specCmp a b ≠ .gt)

/-- Modelled from the spec: `valid_identifier_char` is called by css.rs but
is not present under src.  The spec (§4.2) consumes "identifiers" for tag,
id and class names; modelled as ASCII letters, digits, `-` and `_`. -/
def valid_identifier_char (c : Char) : Bool :=
  html.is_tag_char c || c == '-' || c == '_'

/-- Modelled from the spec: `parse_identifier` is called by css.rs but is
not present under src; it consumes a run of identifier characters.  The
cursor helpers of css.rs's `Parser` are likewise not under src and are
shared with the html.rs embedding, whose source defines them. -/
def parse_identifier (input : Str) : Str × Str :=
  html.consume_while valid_identifier_char input

/-- The loop of css.rs `parse_simple_selector`, with the mutable selector
threaded as an accumulator: `#` sets the id, `.` appends a class, `*` is
skipped, an identifier character starts a tag name, anything else stops. -/
def parse_simple_selector_loop : Nat → SimpleSelector → Str → Except ParseError (SimpleSelector × Str)
  | 0, _, _ => .error .fuelOut
  | fuel + 1, selector, input =>
    match input with
    | [] => .ok (selector, [])
    | c :: rest =>
      if c = '#' then
        let (i, st) := parse_identifier rest
        parse_simple_selector_loop fuel { selector with id := some i } st
      else if c = '.' then
        let (cls, st) := parse_identifier rest
        parse_simple_selector_loop fuel
          { selector with «class» := selector.«class» ++ [cls] } st
      else if c = '*' then
        parse_simple_selector_loop fuel selector rest
      else if valid_identifier_char c then
        let (t, st) := parse_identifier (c :: rest)
        parse_simple_selector_loop fuel { selector with tag_name := some t } st
      else .ok (selector, c :: rest)

/-- css.rs `parse_simple_selector`, starting from the empty selector. -/
def parse_simple_selector (fuel : Nat) (input : Str) : Except ParseError (SimpleSelector × Str) :=
  parse_simple_selector_loop fuel ⟨none, none, []⟩ input

/-- The loop of css.rs `parse_selectors`: one simple selector, whitespace,
then `,` continues, `{` stops (unconsumed), anything else panics with the
offending character. -/
def parse_selectors_loop : Nat → Str → Except ParseError (List Selector × Str)
  | 0, _ => .error .fuelOut
  | fuel + 1, input =>
    match parse_simple_selector fuel input with
    | .error e => .error e
    | .ok (simple, st) =>
      let sel := Selector.Simple simple
      let st1 := html.consume_whitespace st
      match html.next_char st1 with
      | .error e => .error e
      | .ok c =>
        if c = ',' then
          match html.consume_char st1 with
          | .error e => .error e
          | .ok (_, st2) =>
            let st3 := html.consume_whitespace st2
            match parse_selectors_loop fuel st3 with
            | .error e => .error e
            | .ok (sels, st4) => .ok (sel :: sels, st4)
        else if c = '{' then .ok ([sel], st1)
        else .error (.unexpectedChar c)

/-- Stable insertion into a list sorted by descending specificity: the new
element goes before the first element whose specificity is not above it,
which keeps equal keys in their original order. -/
def ordered_insert_sel (x : Selector) : List Selector → List Selector
  | [] => [x]
  | y :: ys =>
    if specLe y.specificity x.specificity then x :: y :: ys
    else y :: ordered_insert_sel x ys

/-- Stable sort by descending specificity, the embedding of
`selectors.sort_by(|a, b| b.specificity().cmp(&a.specificity()))` (Rust's
`sort_by` is stable, and all stable sorts agree). -/
def sort_selectors : List Selector → List Selector
  | [] => []
  | x :: xs => ordered_insert_sel x (sort_selectors xs)

/-- css.rs `parse_selectors`: the selector list, sorted with the highest
specificity first. -/
def parse_selectors (fuel : Nat) (input : Str) : Except ParseError (List Selector × Str) :=
  match parse_selectors_loop fuel input with
  | .error e => .error e
  | .ok (selectors, st) => .ok (sort_selectors selectors, st)

end css

namespace style

/-- style.rs: `PropertyMap` (declared upstream as
`HashMap<String, Value>`; the alias itself is not under src), embedded as a
lookup function with unique keys and overwriting insert. -/
abbrev PropertyMap := Str → Option css.Value

/-- The empty property map (`HashMap::new()`). -/
def emptyPropertyMap : PropertyMap := fun _ => none

/-- `HashMap::insert` on a property map. -/
def propInsert (k : Str) (v : css.Value) (m : PropertyMap) : PropertyMap :=
  fun k' => if k' = k then some v else m k'

/-- Rust `str::split(' ')`: split on every single space, keeping empty
pieces; the empty string yields `[""]`. -/
def splitSpace : Str → List Str
  | [] => [[]]
  | c :: rest =>
    if c = ' ' then [] :: splitSpace rest
    else
      match splitSpace rest with
      | [] => [[c]]
      | h :: t => (c :: h) :: t

/-- style.rs `ElementData::id`: the `id` attribute, if any. -/
def id (e : dom.ElementData) : Option Str := e.attributes ("id".toList)

/-- style.rs `ElementData::classes`: split the `class` attribute value on
spaces; no attribute means the empty set.  (The src text drops the `match`
scrutinee `self.attributes.get("class")`; it is restored exactly as the two
arms and the surrounding comment dictate.)  Membership in the `HashSet` is
the only operation performed, so the set is embedded as the list of pieces. -/
def classes (e : dom.ElementData) : List Str :=
  match e.attributes ("class".toList) with
  | some classlist => splitSpace classlist
  | none => []

/-- style.rs `matches_simple_selector`: no selector component may reject the
element. -/
def matches_simple_selector (e : dom.ElementData) (selector : css.SimpleSelector) : Bool :=
  if selector.tag_name.any (fun name => e.tag_name != name) then false
  else if selector.id.any (fun i => style.id e != some i) then false
  else if selector.«class».any (fun c => !((classes e).contains c)) then false
  else true

/-- style.rs `matches`. -/
def «matches» (e : dom.ElementData) (selector : css.Selector) : Bool :=
  match selector with
  | .Simple simple_selector => matches_simple_selector e simple_selector

/-- style.rs: `type MatchedRule<'a> = (Specificity, &'a Rule)`. -/
abbrev MatchedRule := css.Specificity × css.Rule

/-- style.rs `match_rule`: the first (highest-specificity) matching selector
of the rule, paired with the rule. -/
def match_rule (e : dom.ElementData) (rule : css.Rule) : Option MatchedRule :=
  (rule.selectors.find? (fun selector => «matches» e selector)).map
    (fun selector => (selector.specificity, rule))

/-- style.rs `matching_rules`: linear scan of the stylesheet. -/
def matching_rules (e : dom.ElementData) (stylesheet : css.Stylesheet) : List MatchedRule :=
  stylesheet.rules.filterMap (fun rule => match_rule e rule)

/-- Stable insertion into a list sorted by ascending specificity. -/
def ordered_insert_mr (x : MatchedRule) : List MatchedRule → List MatchedRule
  | [] => [x]
  | y :: ys =>
    if css.specLe x.1 y.1 then x :: y :: ys
    else y :: ordered_insert_mr x ys

/-- Stable sort by ascending specificity, the embedding of
`rules.sort_by(|&(a, _), &(b, _)| a.cmp(&b))` (Rust's `sort_by` is stable,
and all stable sorts agree). -/
def sort_rules : List MatchedRule → List MatchedRule
  | [] => []
  | x :: xs => ordered_insert_mr x (sort_rules xs)

/-- style.rs `specified_values`: sort the matched rules from lowest to
highest specificity and insert every declaration in order, so later writes
overwrite earlier ones.  (The src parameter is named `style` but the body
reads `stylesheet`; the embedding uses the one stylesheet argument.) -/
def specified_values (e : dom.ElementData) (stylesheet : css.Stylesheet) : PropertyMap :=
  let rules := sort_rules (matching_rules e stylesheet)
  rules.foldl
    (fun values mr =>
      mr.2.declarations.foldl (fun vs d => propInsert d.name d.value vs) values)
    emptyPropertyMap

/-- style.rs: `struct StyledNode<'a> { node, specified_values, children }`
(the struct declaration itself is upstream; the fields are exactly those the
`style_tree` construction under src fills in).  The non-owning reference to
the document node is embedded as the node itself. -/
inductive StyledNode where
  | mk (node : dom.Node) (specified_values : PropertyMap) (children : List StyledNode)

/-- Field accessor for `StyledNode.node`. -/
def StyledNode.node : StyledNode → dom.Node
  | .mk n _ _ => n

/-- Field accessor for `StyledNode.specified_values`. -/
def StyledNode.specified_values : StyledNode → PropertyMap
  | .mk _ sv _ => sv

/-- Field accessor for `StyledNode.children`. -/
def StyledNode.children : StyledNode → List StyledNode
  | .mk _ _ cs => cs

mutual

/-- style.rs `style_tree`: one pass over the document tree; elements get
their specified values, text nodes the empty map, children are styled in
order (`root.children.iter().map(...)`, written as the explicit list
recursion `style_tree_list`). -/
def style_tree : dom.Node → css.Stylesheet → StyledNode
  | .mk cs nt, stylesheet =>
    .mk (.mk cs nt)
      (match nt with
        | .Element elemData => specified_values elemData stylesheet
        | .Text _ => emptyPropertyMap)
      (style_tree_list cs stylesheet)

/-- The mapped recursion over a child list in `style_tree`. -/
def style_tree_list : List dom.Node → css.Stylesheet → List StyledNode
  | [], _ => []
  | c :: cs, stylesheet => style_tree c stylesheet :: style_tree_list cs stylesheet

end

end style

section CascadeDefs

/-- The value of the last declaration of property `p` in a declaration
list, if any: later declarations overwrite earlier ones on map insertion. -/
def lastDeclValue (p : Str) : List css.Declaration → Option css.Value
  | [] => none
  | d :: ds =>
    match lastDeclValue p ds with
    | some v => some v
    | none => if d.name = p then some d.value else none

/-- Whether a rule declares property `p` at all. -/
def declares (p : Str) (r : css.Rule) : Bool :=
  (lastDeclValue p r.declarations).isSome

/-- The last element of a matched-rule list whose rule declares `p`. -/
def findLastDeclaring (p : Str) : List style.MatchedRule → Option style.MatchedRule
  | [] => none
  | c :: cs =>
    match findLastDeclaring p cs with
    | some m => some m
    | none => if declares p c.2 then some c else none

/-- How the candidate processed first combines with the best of the later
ones: the earlier candidate wins only with strictly greater specificity. -/
def combineMax (p : Str) (x : style.MatchedRule) :
    Option style.MatchedRule → Option style.MatchedRule
  | some m => if declares p x.2 && css.specLt m.1 x.1 then some x else some m
  | none => if declares p x.2 then some x else none

/-- Among the candidates declaring `p`, the one every other loses to: the
last one of maximal specificity (an earlier candidate only beats a later
one by strictly greater specificity). -/
def maxDeclaring (p : Str) : List style.MatchedRule → Option style.MatchedRule
  | [] => none
  | x :: l => combineMax p x (maxDeclaring p l)

end CascadeDefs

/-- The selectors `parse_selectors` returns for the input `p, #x {`. -/
def c3sels : List css.Selector :=
  [css.Selector.Simple ⟨none, some ['x'], []⟩, css.Selector.Simple ⟨some ['p'], none, []⟩]

section TreeDefs

mutual

/-- The number of nodes of a document tree. -/
def countNodes : dom.Node → Nat
  | .mk cs _ => 1 + countNodesList cs

/-- The number of nodes of a document forest. -/
def countNodesList : List dom.Node → Nat
  | [] => 0
  | c :: cs => countNodes c + countNodesList cs

end

mutual

/-- The number of nodes of a styled tree. -/
def countStyled : style.StyledNode → Nat
  | .mk _ _ scs => 1 + countStyledList scs

/-- The number of nodes of a styled forest. -/
def countStyledList : List style.StyledNode → Nat
  | [] => 0
  | c :: cs => countStyled c + countStyledList cs

end

/-- A styled tree corresponds to a document tree when it has exactly its
branching structure: the styled node holds that document node, and the
children correspond pairwise, in order. -/
inductive Corresponds : style.StyledNode → dom.Node → Prop where
  | mk (cs : List dom.Node) (nt : dom.NodeType) (pm : style.PropertyMap)
      (scs : List style.StyledNode) :
      List.Forall₂ Corresponds scs cs →
      Corresponds (.mk (.mk cs nt) pm scs) (.mk cs nt)

/-- Every text node in the tree is nonempty and starts with a
non-whitespace character (and sits at a leaf). -/
inductive TextsOk : dom.Node → Prop where
  | text (c : Char) (cs : Str) (hws : c.isWhitespace = false) :
      TextsOk (.mk [] (.Text (c :: cs)))
  | elem (cs : List dom.Node) (d : dom.ElementData) :
      (∀ c ∈ cs, TextsOk c) → TextsOk (.mk cs (.Element d))

end TreeDefs

section OrderLemmas

/-- Trichotomy for `natCmp`, with the arithmetic fact attached. -/
theorem natCmp_cases (m n : Nat) :
    (css.natCmp m n = .lt ∧ m < n) ∨ (css.natCmp m n = .eq ∧ m = n) ∨
      (css.natCmp m n = .gt ∧ n < m) := by
  unfold css.natCmp
  repeat' split
  all_goals simp_all
  all_goals omega

/-- The strict tuple order, componentwise. -/
theorem specLt_iff (a b : css.Specificity) :
    css.specLt a b = true ↔
      (a.1 < b.1 ∨ (a.1 = b.1 ∧ (a.2.1 < b.2.1 ∨ (a.2.1 = b.2.1 ∧ a.2.2 < b.2.2)))) := by
  rcases a with ⟨a1, a2, a3⟩
  rcases b with ⟨b1, b2, b3⟩
  simp only [css.specLt, css.specCmp, decide_eq_true_iff]
  rcases natCmp_cases a1 b1 with ⟨h1, p1⟩ | ⟨h1, p1⟩ | ⟨h1, p1⟩ <;>
  rcases natCmp_cases a2 b2 with ⟨h2, p2⟩ | ⟨h2, p2⟩ | ⟨h2, p2⟩ <;>
  rcases natCmp_cases a3 b3 with ⟨h3, p3⟩ | ⟨h3, p3⟩ | ⟨h3, p3⟩ <;>
    rw [h1, h2, h3] <;> simp [Ordering.then] <;> omega

/-- The non-strict tuple order, componentwise. -/
theorem specLe_iff (a b : css.Specificity) :
    css.specLe a b = true ↔
      (a.1 < b.1 ∨ (a.1 = b.1 ∧ (a.2.1 < b.2.1 ∨ (a.2.1 = b.2.1 ∧ a.2.2 ≤ b.2.2)))) := by
  rcases a with ⟨a1, a2, a3⟩
  rcases b with ⟨b1, b2, b3⟩
  simp only [css.specLe, css.specCmp, decide_eq_true_iff, ne_eq]
  rcases natCmp_cases a1 b1 with ⟨h1, p1⟩ | ⟨h1, p1⟩ | ⟨h1, p1⟩ <;>
  rcases natCmp_cases a2 b2 with ⟨h2, p2⟩ | ⟨h2, p2⟩ | ⟨h2, p2⟩ <;>
  rcases natCmp_cases a3 b3 with ⟨h3, p3⟩ | ⟨h3, p3⟩ | ⟨h3, p3⟩ <;>
    rw [h1, h2, h3] <;> simp [Ordering.then] <;> omega

/-- Totality of the non-strict tuple order. -/
theorem specLe_total (a b : css.Specificity) :
    css.specLe a b = true ∨ css.specLe b a = true := by
  rw [specLe_iff, specLe_iff]; omega

/-- Transitivity of the non-strict tuple order. -/
theorem specLe_trans {a b c : css.Specificity}
    (h1 : css.specLe a b = true) (h2 : css.specLe b c = true) :
    css.specLe a c = true := by
  rw [specLe_iff] at h1 h2 ⊢; omega

/-- `≤` then `<` gives `<`. -/
theorem specLe_lt_trans {a b c : css.Specificity}
    (h1 : css.specLe a b = true) (h2 : css.specLt b c = true) :
    css.specLt a c = true := by
  rw [specLe_iff] at h1; rw [specLt_iff] at h2 ⊢; omega

/-- `<` then `≤` gives `<`. -/
theorem specLt_le_trans {a b c : css.Specificity}
    (h1 : css.specLt a b = true) (h2 : css.specLe b c = true) :
    css.specLt a c = true := by
  rw [specLt_iff] at h1 ⊢; rw [specLe_iff] at h2; omega

/-- `≤` is the negation of the reversed `<`. -/
theorem specLe_iff_not_lt {a b : css.Specificity} :
    css.specLe a b = true ↔ ¬ css.specLt b a = true := by
  rw [specLe_iff, specLt_iff]; omega

/-- `<` implies `≤`. -/
theorem specLt_le {a b : css.Specificity} (h : css.specLt a b = true) :
    css.specLe a b = true := by
  rw [specLt_iff] at h; rw [specLe_iff]; omega

end OrderLemmas

/-- C5: specificity comparison is lexicographic on the 3-tuple
(idCount, classCount, tagCount): the strict order holds exactly when the
first differing component is smaller; hence `(0,5,0) < (1,0,0)` and
`(0,0,1) < (0,5,0)`; a selector with an id outranks any selector without
one no matter how many classes it has; and for equal id counts the selector
with more classes outranks the one with fewer. -/
theorem spec2_c5 :
    (∀ a b : css.Specificity, css.specLt a b = true ↔
      (a.1 < b.1 ∨ (a.1 = b.1 ∧ (a.2.1 < b.2.1 ∨ (a.2.1 = b.2.1 ∧ a.2.2 < b.2.2)))))
    ∧ css.specLt (0, 5, 0) (1, 0, 0) = true
    ∧ css.specLt (0, 0, 1) (0, 5, 0) = true
    ∧ (∀ s1 s2 : css.SimpleSelector, s1.id.isSome = true → s2.id = none →
        css.specLt (css.Selector.specificity (.Simple s2))
          (css.Selector.specificity (.Simple s1)) = true)
    ∧ (∀ s1 s2 : css.SimpleSelector,
        (css.Selector.specificity (.Simple s1)).1 = (css.Selector.specificity (.Simple s2)).1 →
        (css.Selector.specificity (.Simple s2)).2.1 < (css.Selector.specificity (.Simple s1)).2.1 →
        css.specLt (css.Selector.specificity (.Simple s2))
          (css.Selector.specificity (.Simple s1)) = true) := by
  refine ⟨specLt_iff, by decide, by decide, ?_, ?_⟩
  · intro s1 s2 h1 h2
    rw [specLt_iff]
    rcases hs : s1.id with _ | v
    · rw [hs] at h1; simp at h1
    · simp only [css.Selector.specificity, hs, h2]
      simp
  · intro s1 s2 h1 h2
    rw [specLt_iff]
    simp only [css.Selector.specificity] at h1 h2 ⊢
    omega

/-- C6 counterexample: the selector `.a.a` keeps both class fragments
(`class` is a `Vec`, `push` does not collapse duplicates), so its
specificity class component is 2, not 0 or 1. -/
theorem spec2_c6_cex :
    css.parse_simple_selector 8 (".a.a".toList) = .ok (⟨none, none, [['a'], ['a']]⟩, [])
    ∧ (css.Selector.specificity (.Simple ⟨none, none, [['a'], ['a']]⟩)).2.1 = 2
    ∧ ¬ ((css.Selector.specificity (.Simple ⟨none, none, [['a'], ['a']]⟩)).2.1 = 0
        ∨ (css.Selector.specificity (.Simple ⟨none, none, [['a'], ['a']]⟩)).2.1 = 1) := by
  refine ⟨rfl, rfl, by decide⟩

/-- C6 amended: for every Simple selector the id and tag components of the
specificity are each 0 or 1, but the class component equals the number of
class fragments of the selector, which duplicates do not collapse, so it
can exceed 1. -/
theorem spec2_c6_amended : ∀ s : css.SimpleSelector,
    (css.Selector.specificity (.Simple s)).1 ≤ 1
    ∧ (css.Selector.specificity (.Simple s)).2.2 ≤ 1
    ∧ (css.Selector.specificity (.Simple s)).2.1 = s.«class».length := by
  intro s
  refine ⟨?_, ?_, rfl⟩
  · simp only [css.Selector.specificity]
    rcases s.id with _ | v <;> simp
  · simp only [css.Selector.specificity]
    rcases s.tag_name with _ | v <;> simp

/-- C7: a Simple selector matches an element exactly when its tag name (if
present) equals the element's tag name, its id (if present) equals the
element's `id` attribute value (an element without `id` matches no id
selector), and every selector class occurs among the pieces of the
element's `class` attribute split on single spaces (empty when absent); in
particular a selector with no tag, id or classes matches every element. -/
theorem spec2_c7 : ∀ (e : dom.ElementData) (s : css.SimpleSelector),
    (style.matches_simple_selector e s = true ↔
      ((∀ t, s.tag_name = some t → e.tag_name = t) ∧
       (∀ i, s.id = some i → style.id e = some i) ∧
       (∀ c ∈ s.«class», c ∈ style.classes e)))
    ∧ (s.tag_name = none → s.id = none → s.«class» = [] →
        style.matches_simple_selector e s = true) := by
  intro e s
  have key : style.matches_simple_selector e s = true ↔
      ((∀ t, s.tag_name = some t → e.tag_name = t) ∧
       (∀ i, s.id = some i → style.id e = some i) ∧
       (∀ c ∈ s.«class», c ∈ style.classes e)) := by
    unfold style.matches_simple_selector
    rcases htn : s.tag_name with _ | t0 <;> rcases hid : s.id with _ | i0 <;>
      simp [Option.any, List.any_eq_true]
  refine ⟨key, fun h1 h2 h3 => key.mpr ⟨?_, ?_, ?_⟩⟩
  · intro t ht; rw [h1] at ht; cases ht
  · intro i hi; rw [h2] at hi; cases hi
  · intro c hc; rw [h3] at hc; cases hc

/-- C1 counterexample: the pure-text input `hello` parses to a tree whose
root is the Text node `hello`, not an Element. -/
theorem spec2_c1_cex :
    html.parse ("hello".toList) = .ok (dom.text ("hello".toList))
    ∧ dom.isElement (dom.text ("hello".toList)) = false :=
  ⟨rfl, rfl⟩

/-- C1 amended: when the top level of the input yields exactly one node,
that very node is the document returned (and it may be a Text node); when
it yields zero or more than one nodes, the document is the implicit `html`
element with an empty attribute map wrapping them; hence the root is an
Element except when the single top-level node is itself a non-Element
(Text) node, in which case the root is that node. -/
theorem spec2_c1_amended : ∀ (source : Str) (n : dom.Node),
    html.parse source = .ok n →
    ∃ nodes st, html.parse_nodes (html.parseFuel source) source = .ok (nodes, st)
      ∧ (∀ x, nodes = [x] → n = x)
      ∧ (nodes.length ≠ 1 → n = dom.elem ("html".toList) dom.emptyAttrMap nodes)
      ∧ (dom.isElement n = true
        ∨ ∃ x, nodes = [x] ∧ n = x ∧ dom.isElement x = false) := by
  intro source n h
  unfold html.parse at h
  rcases hp : html.parse_nodes (html.parseFuel source) source with e | ⟨nodes, st⟩ <;>
    rw [hp] at h
  · cases h
  · refine ⟨nodes, st, rfl, ?_, ?_, ?_⟩
    · intro x hx
      subst hx
      simp at h
      subst h
      rfl
    · intro hlen
      rcases nodes with _ | ⟨x, _ | ⟨y, rest⟩⟩
      · simp at h; subst h; rfl
      · simp at hlen
      · simp at h; subst h; rfl
    · rcases nodes with _ | ⟨x, _ | ⟨y, rest⟩⟩
      · simp at h; subst h; left; rfl
      · simp at h
        subst h
        by_cases he : dom.isElement x = true
        · exact Or.inl he
        · exact Or.inr ⟨x, rfl, rfl, Bool.eq_false_iff.mpr he⟩
      · simp at h; subst h; left; rfl

/-- C1 amended, applied at `<a></a>`: the single top-level node is the
parsed `a` element and it is the document returned. -/
theorem spec2_c1_witness :
    ∃ nodes st,
      html.parse_nodes (html.parseFuel ("<a></a>".toList)) ("<a></a>".toList) =
        .ok (nodes, st)
      ∧ (∀ x, nodes = [x] → dom.elem ("a".toList) dom.emptyAttrMap [] = x)
      ∧ (nodes.length ≠ 1 →
          dom.elem ("a".toList) dom.emptyAttrMap [] =
            dom.elem ("html".toList) dom.emptyAttrMap nodes)
      ∧ (dom.isElement (dom.elem ("a".toList) dom.emptyAttrMap []) = true
        ∨ ∃ x, nodes = [x] ∧ dom.elem ("a".toList) dom.emptyAttrMap [] = x
            ∧ dom.isElement x = false) :=
  spec2_c1_amended ("<a></a>".toList) (dom.elem ("a".toList) dom.emptyAttrMap []) rfl

/-- C4 counterexample: on the spec's own malformed example `<a><b></a>`
(mismatched closing tag) the parser aborts through a failed `assert!`,
whose outcome carries no offending position and no expected-vs-found
description — not a structured failure result. -/
theorem spec2_c4_cex :
    html.parse ("<a><b></a>".toList) = .error .panicked := rfl

/-- C4 amended: malformed input aborts the parse with no partial tree, but
through a panic: a mismatched closing tag, a missing `=`, a bad quote
character and a missing `>` all abort via `assert!` (no position, no
description), and an unexpected character in a selector list panics
carrying only the character. -/
theorem spec2_c4_amended :
    html.parse ("<a><b></a>".toList) = .error .panicked
    ∧ html.parse ("<a b c>x</a>".toList) = .error .panicked
    ∧ html.parse ("<a b=x>y</a>".toList) = .error .panicked
    ∧ html.parse ("<a".toList) = .error .panicked
    ∧ css.parse_selectors 20 ("p @ \x7b".toList) = .error (.unexpectedChar '@') :=
  ⟨rfl, rfl, rfl, rfl, rfl⟩

/-- C10: evaluating the attribute parser at a tag with a repeated attribute
(and even at `<p a="1">x</p>`, any quoted attribute at all) aborts with a
panic instead of producing an attribute map: `parse_attr_value` as written
under src never consumes the closing quote, so the attribute loop re-enters
at that quote and the `assert!` on `=` fails. -/
theorem spec2_c10_bug :
    html.parse_attributes 20 ((" a=\"1\" a=\"2\">").toList) = .error .panicked
    ∧ html.parse (("<p a=\"1\" a=\"2\">x</p>").toList) = .error .panicked
    ∧ html.parse (("<p a=\"1\">x</p>").toList) = .error .panicked :=
  ⟨rfl, rfl, rfl⟩

section SelectorSort

/-- `≤` is reflexive. -/
theorem specLe_refl (a : css.Specificity) : css.specLe a a = true := by
  rw [specLe_iff]; omega

/-- Membership in an ordered insertion. -/
theorem mem_ordered_insert_sel {b x : css.Selector} {l : List css.Selector} :
    b ∈ css.ordered_insert_sel x l ↔ b = x ∨ b ∈ l := by
  induction l with
  | nil => simp [css.ordered_insert_sel]
  | cons y ys ih =>
    rw [css.ordered_insert_sel]
    by_cases hc : css.specLe y.specificity x.specificity = true
    · rw [if_pos hc]; simp
    · rw [if_neg hc]; simp [ih]; tauto

/-- Ordered insertion preserves descending-specificity sortedness. -/
theorem pairwise_ordered_insert_sel {x : css.Selector} {l : List css.Selector}
    (h : l.Pairwise (fun a b => css.specLe b.specificity a.specificity = true)) :
    (css.ordered_insert_sel x l).Pairwise
      (fun a b => css.specLe b.specificity a.specificity = true) := by
  induction l with
  | nil => simp [css.ordered_insert_sel]
  | cons y ys ih =>
    rw [css.ordered_insert_sel]
    rw [List.pairwise_cons] at h
    obtain ⟨hy, hys⟩ := h
    by_cases hc : css.specLe y.specificity x.specificity = true
    · rw [if_pos hc]
      rw [List.pairwise_cons]
      refine ⟨?_, List.pairwise_cons.mpr ⟨hy, hys⟩⟩
      intro b hb
      rcases List.mem_cons.mp hb with rfl | hb2
      · exact hc
      · exact specLe_trans (hy b hb2) hc
    · rw [if_neg hc]
      rw [List.pairwise_cons]
      refine ⟨?_, ih hys⟩
      intro b hb
      rcases mem_ordered_insert_sel.mp hb with rfl | hb'
      · rcases specLe_total b.specificity y.specificity with ht | ht
        · exact ht
        · exact absurd ht hc
      · exact hy b hb'

/-- `sort_selectors` yields a descending-specificity list. -/
theorem pairwise_sort_selectors (l : List css.Selector) :
    (css.sort_selectors l).Pairwise
      (fun a b => css.specLe b.specificity a.specificity = true) := by
  induction l with
  | nil => simp [css.sort_selectors]
  | cons x xs ih => exact pairwise_ordered_insert_sel ih

/-- In a descending-specificity list, the first selector `find?` accepts
has the greatest specificity among all accepted ones. -/
theorem find_first_is_max {l : List css.Selector} {p : css.Selector → Bool}
    {sel : css.Selector}
    (hs : l.Pairwise (fun a b => css.specLe b.specificity a.specificity = true))
    (hf : l.find? p = some sel) :
    ∀ s' ∈ l, p s' = true → css.specLe s'.specificity sel.specificity = true := by
  induction l with
  | nil => cases hf
  | cons y ys ih =>
    rw [List.pairwise_cons] at hs
    obtain ⟨hy, hys⟩ := hs
    by_cases hpy : p y = true
    · rw [List.find?_cons_of_pos _ hpy] at hf
      injection hf with hf
      subst hf
      intro s' hs' hp
      rcases List.mem_cons.mp hs' with rfl | hmem
      · exact specLe_refl _
      · exact hy s' hmem
    · rw [List.find?_cons_of_neg _ hpy] at hf
      intro s' hs' hp
      rcases List.mem_cons.mp hs' with rfl | hmem
      · exact absurd hp hpy
      · exact ih hys hf s' hmem hp

end SelectorSort

/-- C3: whatever `parse_selectors` returns is sorted by descending
specificity, and consequently the `(specificity, rule)` pair `match_rule`
builds from the first matching selector carries the greatest specificity
among the rule's selectors matching that element. -/
theorem spec2_c3 : ∀ (fuel : Nat) (input : Str) (sels : List css.Selector) (st : Str),
    css.parse_selectors fuel input = .ok (sels, st) →
    sels.Pairwise (fun a b => css.specLe b.specificity a.specificity = true)
    ∧ (∀ (e : dom.ElementData) (ds : List css.Declaration) (spec : css.Specificity)
        (r' : css.Rule),
        style.match_rule e ⟨sels, ds⟩ = some (spec, r') →
        ∃ sel, sel ∈ sels ∧ style.«matches» e sel = true ∧ spec = sel.specificity ∧
          ∀ s' ∈ sels, style.«matches» e s' = true →
            css.specLe s'.specificity spec = true) := by
  intro fuel input sels st h
  unfold css.parse_selectors at h
  rcases hl : css.parse_selectors_loop fuel input with e | ⟨raw, st'⟩ <;> rw [hl] at h
  · cases h
  · injection h with h
    injection h with h1 h2
    subst h1
    have hsorted := pairwise_sort_selectors raw
    refine ⟨hsorted, ?_⟩
    intro e ds spec r' hm
    unfold style.match_rule at hm
    rcases hf : (css.sort_selectors raw).find? (fun s => style.«matches» e s)
      with _ | sel <;> rw [hf] at hm
    · cases hm
    · injection hm with hm
      injection hm with hspec hrule
      refine ⟨sel, List.mem_of_find?_eq_some hf, List.find?_some hf, hspec.symm, ?_⟩
      intro s' hs' hmatch
      subst hspec
      exact find_first_is_max hsorted hf s' hs' hmatch

/-- C3 applied at the input `p, #x {`: the id selector is sorted first. -/
theorem spec2_c3_witness :
    c3sels.Pairwise (fun a b => css.specLe b.specificity a.specificity = true)
    ∧ (∀ (e : dom.ElementData) (ds : List css.Declaration) (spec : css.Specificity)
        (r' : css.Rule),
        style.match_rule e ⟨c3sels, ds⟩ = some (spec, r') →
        ∃ sel, sel ∈ c3sels ∧ style.«matches» e sel = true ∧ spec = sel.specificity ∧
          ∀ s' ∈ c3sels, style.«matches» e s' = true →
            css.specLe s'.specificity spec = true) :=
  spec2_c3 20 ("p, #x \x7b".toList) c3sels ("\x7b".toList) rfl

section CascadeLemmas

/-- Folding one rule's declarations into a property map: the lookup of `p`
afterwards is its last declared value, or the old entry. -/
theorem foldl_decls_lookup (ds : List css.Declaration) (m : style.PropertyMap) (p : Str) :
    (ds.foldl (fun vs d => style.propInsert d.name d.value vs) m) p =
      match lastDeclValue p ds with
      | some v => some v
      | none => m p := by
  induction ds generalizing m with
  | nil => rfl
  | cons d ds ih =>
    rw [List.foldl_cons, lastDeclValue, ih]
    rcases lastDeclValue p ds with _ | v
    · by_cases h : d.name = p
      · subst h; simp [style.propInsert]
      · simp only [style.propInsert]
        rw [if_neg h, if_neg (fun hc => h hc.symm)]
    · simp

/-- Folding a list of matched rules into a property map: the lookup of `p`
afterwards comes from the last rule declaring `p`, or the old entry. -/
theorem foldl_rules_lookup (cs : List style.MatchedRule) (m : style.PropertyMap) (p : Str) :
    (cs.foldl
      (fun values mr =>
        mr.2.declarations.foldl (fun vs d => style.propInsert d.name d.value vs) values)
      m) p =
      match findLastDeclaring p cs with
      | some c => lastDeclValue p c.2.declarations
      | none => m p := by
  induction cs generalizing m with
  | nil => rfl
  | cons c cs ih =>
    rw [List.foldl_cons, findLastDeclaring, ih]
    rcases findLastDeclaring p cs with _ | c'
    · rw [foldl_decls_lookup]
      unfold declares
      rcases h : lastDeclValue p c.2.declarations with _ | v
      · simp [h]
      · simp [h]
    · simp

end CascadeLemmas

section CascadeSort

/-- Membership in an ordered insertion of matched rules. -/
theorem mem_ordered_insert_mr {b x : style.MatchedRule} {l : List style.MatchedRule} :
    b ∈ style.ordered_insert_mr x l ↔ b = x ∨ b ∈ l := by
  induction l with
  | nil => simp [style.ordered_insert_mr]
  | cons y ys ih =>
    rw [style.ordered_insert_mr]
    by_cases hc : css.specLe x.1 y.1 = true
    · rw [if_pos hc]; simp
    · rw [if_neg hc]; simp [ih]; tauto

/-- Ordered insertion preserves ascending-specificity sortedness. -/
theorem pairwise_ordered_insert_mr {x : style.MatchedRule} {l : List style.MatchedRule}
    (h : l.Pairwise (fun a b => css.specLe a.1 b.1 = true)) :
    (style.ordered_insert_mr x l).Pairwise (fun a b => css.specLe a.1 b.1 = true) := by
  induction l with
  | nil => simp [style.ordered_insert_mr]
  | cons y ys ih =>
    rw [style.ordered_insert_mr]
    rw [List.pairwise_cons] at h
    obtain ⟨hy, hys⟩ := h
    by_cases hc : css.specLe x.1 y.1 = true
    · rw [if_pos hc]
      rw [List.pairwise_cons]
      refine ⟨?_, List.pairwise_cons.mpr ⟨hy, hys⟩⟩
      intro b hb
      rcases List.mem_cons.mp hb with rfl | hb2
      · exact hc
      · exact specLe_trans hc (hy b hb2)
    · rw [if_neg hc]
      rw [List.pairwise_cons]
      refine ⟨?_, ih hys⟩
      intro b hb
      rcases mem_ordered_insert_mr.mp hb with rfl | hb'
      · rcases specLe_total b.1 y.1 with ht | ht
        · exact absurd ht hc
        · exact ht
      · exact hy b hb'

/-- `sort_rules` yields an ascending-specificity list. -/
theorem pairwise_sort_rules (l : List style.MatchedRule) :
    (style.sort_rules l).Pairwise (fun a b => css.specLe a.1 b.1 = true) := by
  induction l with
  | nil => simp [style.sort_rules]
  | cons x xs ih => exact pairwise_ordered_insert_mr ih

/-- A hit of `findLastDeclaring` is a member that declares `p`. -/
theorem findLastDeclaring_mem {p : Str} {l : List style.MatchedRule}
    {c : style.MatchedRule} (h : findLastDeclaring p l = some c) :
    c ∈ l ∧ declares p c.2 = true := by
  induction l with
  | nil => cases h
  | cons y ys ih =>
    rw [findLastDeclaring] at h
    rcases hf : findLastDeclaring p ys with _ | m <;> rw [hf] at h
    · by_cases hd : declares p y.2 = true
      · rw [if_pos hd] at h
        injection h with h
        subst h
        exact ⟨List.mem_cons_self _ _, hd⟩
      · rw [if_neg hd] at h; cases h
    · injection h with h
      subst h
      obtain ⟨hm, hd⟩ := ih hf
      exact ⟨List.mem_cons_of_mem _ hm, hd⟩

end CascadeSort

section CascadeStep

/-- Failure of `≤` flips to strict `<` the other way. -/
theorem specLt_of_not_le {a b : css.Specificity} (h : ¬ css.specLe a b = true) :
    css.specLt b a = true := by
  by_contra hc
  exact h (specLe_iff_not_lt.mpr hc)

/-- Inserting a candidate into an ascending-specificity list combines with
the last declaring element exactly as `combineMax` says: the inserted
(originally earlier) candidate wins only by strictly greater specificity. -/
theorem findLast_ordered_insert (p : Str) (x : style.MatchedRule)
    (s : List style.MatchedRule)
    (hs : s.Pairwise (fun a b => css.specLe a.1 b.1 = true)) :
    findLastDeclaring p (style.ordered_insert_mr x s) =
      combineMax p x (findLastDeclaring p s) := by
  induction s with
  | nil => rfl
  | cons y ys ih =>
    rw [List.pairwise_cons] at hs
    obtain ⟨hy, hys⟩ := hs
    rw [style.ordered_insert_mr]
    by_cases hc : css.specLe x.1 y.1 = true
    · rw [if_pos hc]
      rw [findLastDeclaring]
      rcases hf : findLastDeclaring p (y :: ys) with _ | m
      · simp only [combineMax]
      · have hmem := findLastDeclaring_mem hf
        have hym : css.specLe y.1 m.1 = true := by
          rcases List.mem_cons.mp hmem.1 with rfl | hm2
          · exact specLe_refl _
          · exact hy m hm2
        have hxm := specLe_trans hc hym
        have hnlt := specLe_iff_not_lt.mp hxm
        simp only [combineMax]
        rw [Bool.eq_false_iff.mpr hnlt]
        simp
    · rw [if_neg hc]
      rw [findLastDeclaring, ih hys]
      conv_rhs => rw [findLastDeclaring]
      rcases hf : findLastDeclaring p ys with _ | m
      · by_cases hdx : declares p x.2 = true
        · have hlt : css.specLt y.1 x.1 = true := specLt_of_not_le hc
          by_cases hdy : declares p y.2 = true <;>
            simp [combineMax, hdx, hdy, hlt]
        · by_cases hdy : declares p y.2 = true <;>
            simp [combineMax, hdx, hdy]
      · simp only [combineMax]
        by_cases hcond : (declares p x.2 && css.specLt m.1 x.1) = true <;>
          simp [hcond]

/-- `findLastDeclaring` after the stable ascending sort computes
`maxDeclaring` of the unsorted candidate list. -/
theorem findLast_sort_rules (p : Str) (l : List style.MatchedRule) :
    findLastDeclaring p (style.sort_rules l) = maxDeclaring p l := by
  induction l with
  | nil => rfl
  | cons x xs ih =>
    rw [style.sort_rules, maxDeclaring, ← ih]
    exact findLast_ordered_insert p x _ (pairwise_sort_rules xs)

end CascadeStep

section MaxDeclaring

/-- A hit of `maxDeclaring` is a member that declares `p`. -/
theorem maxDeclaring_mem {p : Str} {l : List style.MatchedRule}
    {c : style.MatchedRule} (h : maxDeclaring p l = some c) :
    c ∈ l ∧ declares p c.2 = true := by
  induction l with
  | nil => cases h
  | cons x xs ih =>
    rw [maxDeclaring] at h
    rcases hm : maxDeclaring p xs with _ | m <;> rw [hm] at h
    · by_cases hd : declares p x.2 = true
      · simp only [combineMax, if_pos hd] at h
        injection h with h
        subst h
        exact ⟨List.mem_cons_self _ _, hd⟩
      · simp only [combineMax, if_neg hd] at h
        cases h
    · simp only [combineMax] at h
      by_cases hcond : (declares p x.2 && css.specLt m.1 x.1) = true
      · rw [if_pos hcond] at h
        injection h with h
        subst h
        exact ⟨List.mem_cons_self _ _, (Bool.and_eq_true_iff.mp hcond).1⟩
      · rw [if_neg hcond] at h
        injection h with h
        subst h
        obtain ⟨hmem, hd⟩ := ih hm
        exact ⟨List.mem_cons_of_mem _ hmem, hd⟩

/-- `maxDeclaring` is `none` exactly when no candidate declares `p`. -/
theorem maxDeclaring_eq_none_iff (p : Str) (l : List style.MatchedRule) :
    maxDeclaring p l = none ↔ ∀ c ∈ l, declares p c.2 = false := by
  induction l with
  | nil => simp [maxDeclaring]
  | cons x xs ih =>
    rw [maxDeclaring]
    rcases hm : maxDeclaring p xs with _ | m
    · by_cases hd : declares p x.2 = true
      · simp only [combineMax, if_pos hd]
        simp only [reduceCtorEq, false_iff]
        intro hall
        have := hall x (List.mem_cons_self _ _)
        rw [hd] at this
        cases this
      · simp only [combineMax, if_neg hd]
        simp only [true_iff]
        intro c hc
        rcases List.mem_cons.mp hc with rfl | h2
        · exact Bool.eq_false_iff.mpr hd
        · exact ih.mp hm c h2
    · have hsome : ∃ w, combineMax p x (some m) = some w := by
        simp only [combineMax]
        by_cases hcond : (declares p x.2 && css.specLt m.1 x.1) = true
        · exact ⟨x, if_pos hcond⟩
        · exact ⟨m, if_neg hcond⟩
      obtain ⟨w, hw⟩ := hsome
      rw [hw]
      simp only [reduceCtorEq, false_iff]
      intro hall
      obtain ⟨hmem, hd⟩ := maxDeclaring_mem hm
      have := hall m (List.mem_cons_of_mem _ hmem)
      rw [hd] at this
      cases this

/-- Forward characterization: the winner splits the candidate list into an
earlier part it weakly beats and a later part it strictly beats (among the
candidates declaring `p`). -/
theorem maxDeclaring_split {p : Str} {l : List style.MatchedRule} :
    ∀ {c : style.MatchedRule}, maxDeclaring p l = some c →
    ∃ l1 l2, l = l1 ++ c :: l2 ∧ declares p c.2 = true ∧
      (∀ c' ∈ l1, declares p c'.2 = true → css.specLe c'.1 c.1 = true) ∧
      (∀ c' ∈ l2, declares p c'.2 = true → css.specLt c'.1 c.1 = true) := by
  induction l with
  | nil => intro c h; cases h
  | cons x xs ih =>
    intro c h
    rw [maxDeclaring] at h
    rcases hm : maxDeclaring p xs with _ | m <;> rw [hm] at h
    · by_cases hd : declares p x.2 = true
      · simp only [combineMax, if_pos hd] at h
        injection h with h
        subst h
        refine ⟨[], xs, rfl, hd, by simp, ?_⟩
        intro c' hc' hd'
        have := (maxDeclaring_eq_none_iff p xs).mp hm c' hc'
        rw [hd'] at this
        cases this
      · simp only [combineMax, if_neg hd] at h
        cases h
    · obtain ⟨l1, l2, heq, hdm, hle, hlt⟩ := ih hm
      simp only [combineMax] at h
      by_cases hcond : (declares p x.2 && css.specLt m.1 x.1) = true
      · rw [if_pos hcond] at h
        injection h with h
        subst h
        obtain ⟨hdx, hltmx⟩ := Bool.and_eq_true_iff.mp hcond
        refine ⟨[], xs, rfl, hdx, by simp, ?_⟩
        intro c' hc' hd'
        rw [heq] at hc'
        rcases List.mem_append.mp hc' with h1 | h2
        · exact specLe_lt_trans (hle c' h1 hd') hltmx
        · rcases List.mem_cons.mp h2 with rfl | h3
          · exact hltmx
          · exact specLt_le_trans (hlt c' h3 hd') (specLt_le hltmx)
      · rw [if_neg hcond] at h
        injection h with h
        subst h
        refine ⟨x :: l1, l2, by rw [heq]; rfl, hdm, ?_, hlt⟩
        intro c' hc' hd'
        rcases List.mem_cons.mp hc' with rfl | h1
        · have hnlt : ¬ css.specLt m.1 c'.1 = true := by
            intro hl
            exact hcond (by rw [hd', hl]; rfl)
          exact specLe_iff_not_lt.mpr hnlt
        · exact hle c' h1 hd'

/-- Backward characterization: such a split determines the winner. -/
theorem maxDeclaring_of_split {p : Str} (l2 : List style.MatchedRule)
    (c : style.MatchedRule) (hd : declares p c.2 = true) :
    ∀ l1 : List style.MatchedRule,
    (∀ c' ∈ l1, declares p c'.2 = true → css.specLe c'.1 c.1 = true) →
    (∀ c' ∈ l2, declares p c'.2 = true → css.specLt c'.1 c.1 = true) →
    maxDeclaring p (l1 ++ c :: l2) = some c := by
  intro l1
  induction l1 with
  | nil =>
    intro _ hlt
    simp only [List.nil_append, maxDeclaring]
    rcases hm : maxDeclaring p l2 with _ | m
    · simp [combineMax, hd]
    · obtain ⟨hmem, hdm⟩ := maxDeclaring_mem hm
      have hltm := hlt m hmem hdm
      simp only [combineMax, hd, Bool.true_and]
      rw [if_pos hltm]
  | cons x l1' ih =>
    intro hle hlt
    have hstep : (x :: l1') ++ c :: l2 = x :: (l1' ++ c :: l2) := rfl
    rw [hstep, maxDeclaring,
      ih (fun c' h hd' => hle c' (List.mem_cons_of_mem _ h) hd') hlt]
    simp only [combineMax]
    by_cases hdx : declares p x.2 = true
    · have hlex := hle x (List.mem_cons_self _ _) hdx
      have hnlt := specLe_iff_not_lt.mp hlex
      simp [hdx, Bool.eq_false_iff.mpr hnlt]
    · simp [Bool.eq_false_iff.mpr hdx]

end MaxDeclaring

/-- C2: the cascade override law.  For every element, stylesheet and
property name, the value in the built property map is `v` exactly when the
matched-rule list (in source order, each carrying the specificity
`match_rule` assigned it) splits around a winner `c` whose last declaration
of the property is `v`, such that every earlier matching rule declaring the
property has specificity at most `c`'s and every later one has specificity
strictly below `c`'s: higher-specificity rules win regardless of source
order, later rules win ties, and within a rule the later declaration
wins. -/
theorem spec2_c2 :
    ∀ (e : dom.ElementData) (ss : css.Stylesheet) (p : Str) (v : css.Value),
    style.specified_values e ss p = some v ↔
      ∃ l1 c l2, style.matching_rules e ss = l1 ++ c :: l2 ∧
        lastDeclValue p c.2.declarations = some v ∧
        (∀ c' ∈ l1, declares p c'.2 = true → css.specLe c'.1 c.1 = true) ∧
        (∀ c' ∈ l2, declares p c'.2 = true → css.specLt c'.1 c.1 = true) := by
  intro e ss p v
  have hsv : style.specified_values e ss p =
      match maxDeclaring p (style.matching_rules e ss) with
      | some c => lastDeclValue p c.2.declarations
      | none => none := by
    simp only [style.specified_values]
    rw [foldl_rules_lookup, findLast_sort_rules]
    rcases maxDeclaring p (style.matching_rules e ss) with _ | c <;> rfl
  rw [hsv]
  constructor
  · intro h
    rcases hm : maxDeclaring p (style.matching_rules e ss) with _ | c <;> rw [hm] at h
    · cases h
    · obtain ⟨l1, l2, heq, _, hle, hlt⟩ := maxDeclaring_split hm
      exact ⟨l1, c, l2, heq, h, hle, hlt⟩
  · rintro ⟨l1, c, l2, heq, hv, hle, hlt⟩
    have hd : declares p c.2 = true := by
      unfold declares
      rw [hv]
      rfl
    rw [heq, maxDeclaring_of_split l2 c hd l1 hle hlt]
    exact hv


section TreeEquations

/-- Unfolding equation for `style_tree`. -/
theorem style_tree_eq (cs : List dom.Node) (nt : dom.NodeType) (ss : css.Stylesheet) :
    style.style_tree (.mk cs nt) ss =
      .mk (.mk cs nt)
        (match nt with
          | .Element elemData => style.specified_values elemData ss
          | .Text _ => style.emptyPropertyMap)
        (style.style_tree_list cs ss) := by
  rw [style.style_tree.eq_def]

/-- Unfolding equation for `style_tree_list` on `[]`. -/
theorem style_tree_list_nil (ss : css.Stylesheet) :
    style.style_tree_list [] ss = [] := by
  rw [style.style_tree_list.eq_def]

/-- Unfolding equation for `style_tree_list` on `::`. -/
theorem style_tree_list_cons (c : dom.Node) (cs : List dom.Node) (ss : css.Stylesheet) :
    style.style_tree_list (c :: cs) ss =
      style.style_tree c ss :: style.style_tree_list cs ss := by
  rw [style.style_tree_list.eq_def]

/-- Unfolding equation for `countNodes`. -/
theorem countNodes_eq (cs : List dom.Node) (nt : dom.NodeType) :
    countNodes (.mk cs nt) = 1 + countNodesList cs := by
  rw [countNodes.eq_def]

/-- Unfolding equation for `countStyled`. -/
theorem countStyled_eq (n : dom.Node) (pm : style.PropertyMap)
    (scs : List style.StyledNode) :
    countStyled (.mk n pm scs) = 1 + countStyledList scs := by
  rw [countStyled.eq_def]

end TreeEquations

section TreeLemmas

/-- Structural induction over document nodes: a property that holds for a
node whenever it holds for all its children holds everywhere. -/
theorem node_ind (P : dom.Node → Prop)
    (h : ∀ cs nt, (∀ c ∈ cs, P c) → P (.mk cs nt)) : ∀ n, P n
  | .mk cs nt => h cs nt (fun c hc => node_ind P h c)
decreasing_by
  have := List.sizeOf_lt_of_mem hc
  simp only [dom.Node.mk.sizeOf_spec]
  omega

/-- The styled tree corresponds to its document tree. -/
theorem corresponds_style_tree (ss : css.Stylesheet) :
    ∀ n : dom.Node, Corresponds (style.style_tree n ss) n := by
  refine node_ind _ ?_
  intro cs nt ih
  rw [style_tree_eq]
  refine Corresponds.mk cs nt _ _ ?_
  clear nt
  induction cs with
  | nil => rw [style_tree_list_nil]; exact List.Forall₂.nil
  | cons c cs ihl =>
    rw [style_tree_list_cons]
    exact List.Forall₂.cons (ih c (List.mem_cons_self _ _))
      (ihl (fun d hd => ih d (List.mem_cons_of_mem _ hd)))

/-- The styled tree has exactly as many nodes as its document tree. -/
theorem count_style_tree (ss : css.Stylesheet) :
    ∀ n : dom.Node, countStyled (style.style_tree n ss) = countNodes n := by
  refine node_ind _ ?_
  intro cs nt ih
  rw [style_tree_eq, countStyled_eq, countNodes_eq]
  congr 1
  clear nt
  induction cs with
  | nil => rw [style_tree_list_nil]; rfl
  | cons c cs ihl =>
    rw [style_tree_list_cons, countStyledList, countNodesList,
      ih c (List.mem_cons_self _ _),
      ihl (fun d hd => ih d (List.mem_cons_of_mem _ hd))]

end TreeLemmas

/-- C8: the styled tree produced by `style_tree` has exactly the branching
structure of the document tree: it corresponds node-for-node (same child
order, each styled node holding its document node), its root holds the
input node, and the node counts agree. -/
theorem spec2_c8 : ∀ (ss : css.Stylesheet) (n : dom.Node),
    Corresponds (style.style_tree n ss) n
    ∧ (style.style_tree n ss).node = n
    ∧ countStyled (style.style_tree n ss) = countNodes n := by
  intro ss n
  refine ⟨corresponds_style_tree ss n, ?_, count_style_tree ss n⟩
  rcases n with ⟨cs, nt⟩
  rw [style_tree_eq]
  rfl

section WhitespaceLemmas

/-- After `consume_whitespace` the cursor is at end of input or at a
non-whitespace character. -/
theorem consume_whitespace_head (input : Str) :
    ∀ c cs, html.consume_whitespace input = c :: cs → c.isWhitespace = false := by
  induction input with
  | nil => intro c cs h; cases h
  | cons x xs ih =>
    intro c cs h
    rw [html.consume_whitespace, html.consume_while] at h
    by_cases hx : Char.isWhitespace x = true
    · rw [if_pos hx] at h
      exact ih c cs h
    · rw [if_neg hx] at h
      injection h with h1 h2
      subst h1
      exact Bool.eq_false_iff.mpr hx

/-- A text node parsed at a non-whitespace, non-`<` character satisfies the
text invariant. -/
theorem parse_text_ok {c : Char} {rest : Str}
    (hws : c.isWhitespace = false) (hlt : c ≠ '<') :
    TextsOk (html.parse_text (c :: rest)).1 := by
  simp only [html.parse_text, html.consume_while]
  rw [if_pos (bne_iff_ne.mpr hlt)]
  exact TextsOk.text c _ hws

end WhitespaceLemmas

/-- The parser's text invariant, proved for the three mutually recursive
parsing functions at every fuel: whitespace is consumed before each sibling
node, so every parsed node satisfies `TextsOk`. -/
theorem parse_textsOk : ∀ fuel : Nat,
    (∀ input n st, (∀ c cs, input = c :: cs → c.isWhitespace = false) →
      html.parse_node fuel input = .ok (n, st) → TextsOk n)
    ∧ (∀ input n st, html.parse_element fuel input = .ok (n, st) → TextsOk n)
    ∧ (∀ input ns st, html.parse_nodes fuel input = .ok (ns, st) →
        ∀ n ∈ ns, TextsOk n) := by
  intro fuel
  induction fuel with
  | zero =>
    refine ⟨?_, ?_, ?_⟩
    · intro input n st _ h; cases h
    · intro input n st h; cases h
    · intro input ns st h; cases h
  | succ f ih =>
    obtain ⟨ihn, ihe, ihs⟩ := ih
    refine ⟨?_, ?_, ?_⟩
    · intro input n st hhead h
      rw [html.parse_node] at h
      rcases input with _ | ⟨c, rest⟩
      · cases h
      · simp only [html.next_char] at h
        by_cases hc : c = '<'
        · rw [if_pos hc] at h
          exact ihe _ _ _ h
        · rw [if_neg hc] at h
          injection h with h
          have hws := hhead c rest rfl
          have ht := @parse_text_ok c rest hws hc
          rw [h] at ht
          exact ht
    · intro input n st h
      rw [html.parse_element] at h
      rcases h1 : html.consume_char input with e | ⟨c1, st1⟩ <;> rw [h1] at h
      · cases h
      dsimp only at h
      by_cases hc1 : c1 = '<'
      case neg => rw [if_neg hc1] at h; cases h
      rw [if_pos hc1] at h
      rcases h2 : html.parse_tag_name st1 with ⟨tag, st2⟩
      rw [h2] at h
      dsimp only at h
      rcases h3 : html.parse_attributes (f + 1) st2 with e | ⟨attrs, st3⟩ <;> rw [h3] at h
      · cases h
      dsimp only at h
      rcases h4 : html.consume_char st3 with e | ⟨c2, st4⟩ <;> rw [h4] at h
      · cases h
      dsimp only at h
      by_cases hc2 : c2 = '>'
      case neg => rw [if_neg hc2] at h; cases h
      rw [if_pos hc2] at h
      rcases h5 : html.parse_nodes f st4 with e | ⟨children, st5⟩ <;> rw [h5] at h
      · cases h
      dsimp only at h
      rcases h6 : html.consume_char st5 with e | ⟨c3, st6⟩ <;> rw [h6] at h
      · cases h
      dsimp only at h
      by_cases hc3 : c3 = '<'
      case neg => rw [if_neg hc3] at h; cases h
      rw [if_pos hc3] at h
      rcases h7 : html.consume_char st6 with e | ⟨c4, st7⟩ <;> rw [h7] at h
      · cases h
      dsimp only at h
      by_cases hc4 : c4 = '/'
      case neg => rw [if_neg hc4] at h; cases h
      rw [if_pos hc4] at h
      rcases h8 : html.parse_tag_name st7 with ⟨tag2, st8⟩
      rw [h8] at h
      dsimp only at h
      by_cases hc5 : tag2 = tag
      case neg => rw [if_neg hc5] at h; cases h
      rw [if_pos hc5] at h
      rcases h9 : html.consume_char st8 with e | ⟨c5, st9⟩ <;> rw [h9] at h
      · cases h
      dsimp only at h
      by_cases hc6 : c5 = '>'
      case neg => rw [if_neg hc6] at h; cases h
      rw [if_pos hc6] at h
      injection h with h
      injection h with hn hst
      subst hn
      exact TextsOk.elem children _ (ihs _ _ _ h5)
    · intro input ns st h
      rw [html.parse_nodes] at h
      by_cases hend : (html.eof (html.consume_whitespace input)
          || html.starts_with html.ltSlash (html.consume_whitespace input)) = true
      · rw [if_pos hend] at h
        injection h with h
        injection h with h1 h2
        subst h1
        intro n hn
        cases hn
      · rw [if_neg hend] at h
        rcases hpn : html.parse_node f (html.consume_whitespace input)
          with e | ⟨node, st'⟩ <;> rw [hpn] at h
        · cases h
        dsimp only at h
        rcases hps : html.parse_nodes f st' with e | ⟨nodes, st''⟩ <;> rw [hps] at h
        · cases h
        dsimp only at h
        injection h with h
        injection h with h1 h2
        subst h1
        intro m hm
        rcases List.mem_cons.mp hm with rfl | hmem
        · exact ihn _ _ _ (consume_whitespace_head input) hpn
        · exact ihs _ _ _ hps m hmem

/-- C9: whitespace before every sibling node is consumed and discarded, so
a run of whitespace between nodes never becomes a Text node, and every Text
node in a parsed document is nonempty and begins with a non-whitespace
character. -/
theorem spec2_c9 : ∀ (source : Str) (n : dom.Node),
    html.parse source = .ok n → TextsOk n := by
  intro source n h
  unfold html.parse at h
  rcases hp : html.parse_nodes (html.parseFuel source) source
    with e | ⟨nodes, st⟩ <;> rw [hp] at h
  · cases h
  · have hall := (parse_textsOk (html.parseFuel source)).2.2 _ _ _ hp
    rcases nodes with _ | ⟨x, _ | ⟨y, rest⟩⟩
    · simp at h
      subst h
      exact TextsOk.elem _ _ (fun c hc => absurd hc (List.not_mem_nil c))
    · simp at h
      subst h
      exact hall x (List.mem_cons_self _ _)
    · simp at h
      subst h
      exact TextsOk.elem _ _ hall

/-- C9 applied at `<a> hi </a>`: the whitespace-led text child keeps its
trailing space but starts at `h`; the whitespace before it is discarded. -/
theorem spec2_c9_witness :
    TextsOk (dom.elem ("a".toList) dom.emptyAttrMap [dom.text ("hi ".toList)]) :=
  spec2_c9 ("<a> hi </a>".toList)
    (dom.elem ("a".toList) dom.emptyAttrMap [dom.text ("hi ".toList)]) rfl
